import Mathlib

/-!
Shallow embedding of `src/main.py`, a tabbed Qt text editor
(class `TextEditor`).  Buffer text is modelled as `List Char`; the tab
widget as a list of `Tab` records; dialogs as explicit parameters
(boolean ok-flag plus the entered string, or the chosen path); the file
system as an association list from paths to contents; message boxes as a
list of emitted messages.
-/

namespace MainPy

/-- Case-insensitive equality of two character lists, as Python
`re.IGNORECASE` compares a literal pattern against text. -/
def lcEq (a b : List Char) : Bool :=
  a.map Char.toLower == b.map Char.toLower

/-- `ciMatchAt t c p`: the term `t` occurs in content `c` starting at
offset `p`, compared case-insensitively. -/
def ciMatchAt (t c : List Char) (p : Nat) : Bool :=
  lcEq t ((c.drop p).take t.length)

/-- Start positions yielded by `re.finditer(re.escape(t), c, re.IGNORECASE)`
scanning from offset `p`: a greedy left-to-right scan whose matches never
overlap (after a match at `p` the scan resumes at `p + len t`, or at
`p + 1` for a zero-width match).  The `fuel` argument only makes the
recursion structural; `c.length + 1 - p ≤ fuel` always holds at call
sites, so the `fuel = 0` base case is never reached. -/
def scanFuel (t c : List Char) (p : Nat) : Nat → List Nat
  | 0 => []
  | fuel + 1 =>
    if p ≤ c.length then
      if ciMatchAt t c p then
        scanFuel t c (p + max t.length 1) fuel |>.cons p
      else
        scanFuel t c (p + 1) fuel
    else []

/-- All match start positions of `re.finditer` over the whole content. -/
def scanMatches (t c : List Char) : List Nat :=
  scanFuel t c 0 (c.length + 1)

/-- `QTextDocument.find(term, cursor)` with the cursor at offset `p`,
fuelled like `scanFuel`: the first position `q ≥ p` where `term` occurs
(Qt default flags: case-insensitive), or `none`. -/
def findFuel (t c : List Char) (p : Nat) : Nat → Option Nat
  | 0 => none
  | fuel + 1 =>
    if p ≤ c.length then
      if ciMatchAt t c p then some p else findFuel t c (p + 1) fuel
    else none

/-- First occurrence of `t` in `c` at a position `≥ p`. -/
def findFromPos (t c : List Char) (p : Nat) : Option Nat :=
  findFuel t c p (c.length + 1)

/-- Python `str.replace(t, r)` with structural fuel (`c.length < fuel`
at call sites): every occurrence of `t` replaced by `r` in a
left-to-right non-overlapping scan (case-sensitive).  For the empty
pattern Python inserts `r` before every character and at the end, which
the `t.isEmpty` branches reproduce; `replace_text` only calls this with
a non-empty `t`. -/
def replFuel (t r : List Char) : List Char → Nat → List Char
  | c, 0 => c
  | [], _ + 1 => if t.isEmpty then r else []
  | a :: rest, fuel + 1 =>
    if t.isEmpty then
      r ++ a :: replFuel t r rest fuel
    else if t == (a :: rest).take t.length then
      r ++ replFuel t r ((a :: rest).drop t.length) fuel
    else
      a :: replFuel t r rest fuel

/-- Python `str.replace(t, r)` on content `c`. -/
def replaceAll (t r c : List Char) : List Char :=
  replFuel t r c (c.length + 1)

/-- Python `str.endswith(suf)` on a character list. -/
def endsWithSeq (s suf : List Char) : Bool :=
  suf.reverse == s.reverse.take suf.length

/-- `os.path.basename`: the part of the path after the last slash. -/
def basename (p : List Char) : List Char :=
  ((p.reverse.takeWhile (fun c => c ≠ '/'))).reverse

/-- Write `v` at key `p` in the association-list file system. -/
def fsWrite (fs : List (List Char × List Char)) (p v : List Char) :
    List (List Char × List Char) :=
  match fs with
  | [] => [(p, v)]
  | (q, w) :: rest =>
    if q = p then (p, v) :: rest else (q, w) :: fsWrite rest p v

/-- Read the contents stored at path `p`. -/
def fsRead (fs : List (List Char × List Char)) (p : List Char) :
    Option (List Char) :=
  match fs with
  | [] => none
  | (q, w) :: rest => if q = p then some w else fsRead rest p

example : scanMatches "aa".data "aaa".data = [0] := by decide
example : scanMatches "ab".data "xAbab".data = [1, 3] := by decide
example : ciMatchAt "aa".data "aaa".data 1 = true := by decide
example : replaceAll "ab".data "X".data "abcab".data = "XcX".data := by decide
example : replaceAll "aa".data [] "aaa".data = "a".data := by decide
example : basename "a/b.txt".data = "b.txt".data := by decide
example : endsWithSeq "x.py".data ".py".data = true := by decide
example : findFromPos "ab".data "xAbab".data 2 = some 3 := by decide

/-- One tab of the `QTabWidget`: a `QTextEdit` (its plain text, its
text-cursor selection as a start/end offset pair, its accumulated search
highlight spans, its document's modified flag, its duck-typed optional
`file_path` attribute, and whether a `SyntaxHighlighter` was attached),
together with the tab label (`tabText`). -/
structure Tab where
  buffer : List Char
  filePath : Option (List Char)
  modified : Bool
  label : List Char
  selection : Option (Nat × Nat)
  highlights : List (Nat × Nat)
  highlighter : Bool
deriving Repr, DecidableEq

/-- The `TextEditor` window state, the file system it reads and writes,
and the message boxes it has shown. -/
structure AppState where
  tabs : List Tab
  currentIndex : Nat
  search_term : List Char
  last_cursor_pos : Nat
  fs : List (List Char × List Char)
  msgs : List (List Char)
deriving Repr, DecidableEq

/-- `TextEditor.current_editor`: `self.tabs.currentWidget()`, which is
`None` when no tab exists. -/
def current_editor (st : AppState) : Option Tab :=
  st.tabs[st.currentIndex]?

/-- Replace the current tab. -/
def setCurrentTab (st : AppState) (tb : Tab) : AppState :=
  { st with tabs := st.tabs.set st.currentIndex tb }

/-- `TextEditor.new_tab`: appends a fresh empty editor labelled
"Новый документ" and makes it current. -/
def new_tab (st : AppState) : AppState :=
  { st with
    tabs := st.tabs ++ [{ buffer := [], filePath := none, modified := false,
                          label := "Новый документ".data, selection := none,
                          highlights := [], highlighter := false }],
    currentIndex := st.tabs.length }

/-- The `QTextEdit.setPlainText` effect on a tab: the text is replaced,
the undo history is cleared and the document's modified flag is reset,
the cursor returns to the start, and previous character formats are
gone.  The subsequent `textChanged` emission reaches `set_tab_modified`
with `isModified()` false, so no dirty marker is added. -/
def setPlainText (tb : Tab) (txt : List Char) : Tab :=
  { tb with buffer := txt, modified := false, selection := none,
            highlights := [] }

/-- `TextEditor.open_file`.  `filename` is the open-dialog result (`""`
when cancelled).  `readRes` is the outcome of
`open(filename, encoding='utf-8').read()`: decoded text, or the message
of the `OSError`/`UnicodeDecodeError` it raises.  There is no
`try`/`except` in the handler, so on a read or decode failure the
exception escapes `open_file` before any widget is created: the second
component reports the escaped exception, the state is returned
untouched and no message box is shown. -/
def open_file (st : AppState) (filename : List Char)
    (readRes : Except (List Char) (List Char)) :
    AppState × Option (List Char) :=
  if filename.isEmpty then (st, none)
  else
    match readRes with
    | .error e => (st, some e)
    | .ok text =>
      let tb : Tab :=
        { buffer := text, filePath := some filename, modified := false,
          label := basename filename, selection := none, highlights := [],
          highlighter := endsWithSeq filename ".py".data
                      || endsWithSeq filename ".md".data
                      || endsWithSeq filename ".html".data }
      ({ st with tabs := st.tabs ++ [tb], currentIndex := st.tabs.length },
       none)

/-- `TextEditor.save_file`.  `dlg` is the save-dialog result (`""` when
cancelled), consulted only when the editor has no non-empty
`file_path`. -/
def save_file (st : AppState) (dlg : List Char) : AppState :=
  match current_editor st with
  | none => st
  | some tb =>
    let stored := tb.filePath.getD []
    let path := if stored.isEmpty then dlg else stored
    if path.isEmpty then st
    else
      setCurrentTab
        { st with fs := fsWrite st.fs path tb.buffer }
        { tb with filePath := some path, label := basename path,
                  modified := false }

/-- The message of the `QMessageBox.information(self, "Поиск", ...)`
shown when the search text is absent. -/
def notFoundMsg : List Char :=
  "Текст не найден.".data

/-- `TextEditor.highlight_all` on one editor: paints every `finditer`
match span with the search background, moves the text cursor to the
first match when there is one, and otherwise reports "Текст не
найден.". -/
def highlight_all (tb : Tab) (t : List Char) : Tab × Option (List Char) :=
  let ms := scanMatches t tb.buffer
  let spans := ms.map (fun p => (p, p + t.length))
  match ms.head? with
  | some p =>
    ({ tb with highlights := tb.highlights ++ spans,
               selection := some (p, p + t.length) }, none)
  | none =>
    ({ tb with highlights := tb.highlights ++ spans }, some notFoundMsg)

/-- `TextEditor.clear_highlight`: resets the background format over the
whole document. -/
def clear_highlight (tb : Tab) : Tab :=
  { tb with highlights := [] }

/-- `TextEditor.find_text`.  `ok` and `s` are the
`QInputDialog.getText` result. -/
def find_text (st : AppState) (ok : Bool) (s : List Char) : AppState :=
  match current_editor st with
  | none => st
  | some tb =>
    if ok && !s.isEmpty then
      let st1 := { st with search_term := s, last_cursor_pos := 0 }
      let res := highlight_all (clear_highlight tb) s
      let st2 := setCurrentTab st1 res.1
      match res.2 with
      | some m => { st2 with msgs := st2.msgs ++ [m] }
      | none => st2
    else st

/-- `TextEditor.find_next`: searches forward from `last_cursor_pos`,
wraps once to 0 on failure, and on success selects the match and stores
the selection end (the found cursor's `position()`) in
`last_cursor_pos`. -/
def find_next (st : AppState) : AppState :=
  match current_editor st with
  | none => st
  | some tb =>
    if st.search_term.isEmpty then st
    else
      let direct := findFromPos st.search_term tb.buffer st.last_cursor_pos
      let found :=
        match direct with
        | some p => some p
        | none => findFromPos st.search_term tb.buffer 0
      match found with
      | none => st
      | some p =>
        setCurrentTab
          { st with last_cursor_pos := p + st.search_term.length }
          { tb with selection := some (p, p + st.search_term.length) }

/-- `TextEditor.replace_text`.  `ok1, f` and `ok2, r` are the two
`QInputDialog.getText` results. -/
def replace_text (st : AppState) (ok1 : Bool) (f : List Char)
    (ok2 : Bool) (r : List Char) : AppState :=
  match current_editor st with
  | none => st
  | some tb =>
    if ok1 && !f.isEmpty then
      if ok2 then
        setCurrentTab st (setPlainText tb (replaceAll f r tb.buffer))
      else st
    else st

/-- `TextEditor.undo_text`.  The undo effect itself belongs to the
toolkit's `QTextEdit.undo`, an external buffer capability, so it is a
parameter. -/
def undo_text (st : AppState) (eff : Tab → Tab) : AppState :=
  match current_editor st with
  | none => st
  | some tb => setCurrentTab st (eff tb)

/-- `TextEditor.redo_text`, like `undo_text`. -/
def redo_text (st : AppState) (eff : Tab → Tab) : AppState :=
  match current_editor st with
  | none => st
  | some tb => setCurrentTab st (eff tb)

/-- `TextEditor.set_tab_modified`, the `textChanged` slot: when the
current document is modified and the current label does not already end
in `'*'`, appends `'*'` to it. -/
def set_tab_modified (st : AppState) : AppState :=
  match current_editor st with
  | none => st
  | some tb =>
    if tb.modified then
      if endsWithSeq tb.label "*".data then st
      else setCurrentTab st { tb with label := tb.label ++ "*".data }
    else st

/-- The tab transformation of one `auto_save` loop iteration: a tab with
a `file_path` attribute and a modified document gets its flag cleared
and a trailing `'*'` stripped from its label; every other tab is left
alone. -/
def autoSavedTab (tb : Tab) : Tab :=
  if tb.filePath.isSome && tb.modified then
    { tb with modified := false,
              label := if endsWithSeq tb.label "*".data then tb.label.dropLast
                       else tb.label }
  else tb

/-- The file-system effect of the `auto_save` loop, in tab order. -/
def autoSaveFs (fs : List (List Char × List Char)) :
    List Tab → List (List Char × List Char)
  | [] => fs
  | tb :: rest =>
    autoSaveFs
      (if tb.filePath.isSome && tb.modified then
        fsWrite fs (tb.filePath.getD []) tb.buffer
      else fs) rest

/-- `TextEditor.auto_save`: the timer-driven sweep over all tabs.  It
consults no dialog and shows no message box. -/
def auto_save (st : AppState) : AppState :=
  { st with tabs := st.tabs.map autoSavedTab, fs := autoSaveFs st.fs st.tabs }

/-- The reply chosen in the exit confirmation dialog. -/
inductive ExitReply where
  | save
  | discard
  | cancel
deriving Repr, DecidableEq

/-- Result of `TextEditor.closeEvent`: the state afterwards and whether
the close event was accepted (the application exits). -/
structure CloseOutcome where
  st : AppState
  accepted : Bool
deriving Repr, DecidableEq

/-- `TextEditor.closeEvent`.  `reply` is the `QMessageBox.question`
choice (consulted only when some document is modified) and `dlg` the
save-dialog path for the `save_file` call of the Save branch. -/
def closeEvent (st : AppState) (reply : ExitReply) (dlg : List Char) :
    CloseOutcome :=
  let unsaved := st.tabs.any (fun tb => tb.modified)
  if unsaved then
    match reply with
    | .save => { st := save_file st dlg, accepted := true }
    | .discard => { st := st, accepted := true }
    | .cancel => { st := st, accepted := false }
  else { st := st, accepted := true }

/-! ### Concrete states used by the witnesses -/

/-- A window with no tab at all. -/
def st0 : AppState :=
  { tabs := [], currentIndex := 0, search_term := [],
    last_cursor_pos := 0, fs := [], msgs := [] }

/-- A saved-then-edited document containing `"abcab"`. -/
def tab1 : Tab :=
  { buffer := "abcab".data, filePath := some "d/x.txt".data,
    modified := true, label := "x.txt".data, selection := none,
    highlights := [], highlighter := false }

/-- A window with `tab1` as its only tab. -/
def st1 : AppState :=
  { tabs := [tab1], currentIndex := 0, search_term := [],
    last_cursor_pos := 0, fs := [], msgs := [] }

/-- A dirty untitled document. -/
def tab2 : Tab :=
  { buffer := "u".data, filePath := none, modified := true,
    label := "Новый документ*".data, selection := none,
    highlights := [], highlighter := false }

/-- A window with two dirty documents, `tab1` active. -/
def st2 : AppState :=
  { tabs := [tab1, tab2], currentIndex := 0, search_term := [],
    last_cursor_pos := 0, fs := [], msgs := [] }

/-- A fresh document whose text is `"aaa"`. -/
def tab3 : Tab :=
  { buffer := "aaa".data, filePath := none, modified := false,
    label := "Новый документ".data, selection := none,
    highlights := [], highlighter := false }

/-- A window showing `tab3`, with an active search for `"aa"`. -/
def st3 : AppState :=
  { tabs := [tab3], currentIndex := 0, search_term := "aa".data,
    last_cursor_pos := 0, fs := [], msgs := [] }

/-! ### Helper lemmas about the text-level functions -/

theorem ciMatchAt_le {t c : List Char} {p : Nat} (ht : t ≠ [])
    (h : ciMatchAt t c p = true) : p + t.length ≤ c.length := by
  unfold ciMatchAt lcEq at h
  have h2 : t.map Char.toLower = ((c.drop p).take t.length).map Char.toLower := by
    simpa using h
  have hlen := congrArg List.length h2
  simp only [List.length_map, List.length_take, List.length_drop] at hlen
  have ht1 : 0 < t.length := List.length_pos.mpr ht
  omega

theorem findFuel_some {t c : List Char} {fuel p q : Nat}
    (h : findFuel t c p fuel = some q) :
    p ≤ q ∧ ciMatchAt t c q = true ∧
      ∀ m, p ≤ m → m < q → ciMatchAt t c m = false := by
  induction fuel generalizing p with
  | zero => simp [findFuel] at h
  | succ fuel ih =>
    rw [findFuel] at h
    by_cases hp : p ≤ c.length
    · rw [if_pos hp] at h
      by_cases hm : ciMatchAt t c p = true
      · rw [if_pos hm] at h
        cases h
        exact ⟨Nat.le_refl _, hm, fun m h1 h2 => absurd h2 (by omega)⟩
      · rw [if_neg hm] at h
        obtain ⟨h1, h2, h3⟩ := ih h
        refine ⟨by omega, h2, fun m hm1 hm2 => ?_⟩
        rcases Nat.eq_or_lt_of_le hm1 with heq | hlt
        · subst heq
          exact Bool.not_eq_true _ |>.mp hm
        · exact h3 m hlt hm2
    · rw [if_neg hp] at h
      cases h

theorem findFuel_none {t c : List Char} (ht : t ≠ []) {fuel p : Nat}
    (hfuel : c.length < p + fuel) (h : findFuel t c p fuel = none) :
    ∀ q, p ≤ q → ciMatchAt t c q = false := by
  induction fuel generalizing p with
  | zero =>
    intro q hq
    by_contra hc
    have := ciMatchAt_le ht (Bool.not_eq_false _ |>.mp hc)
    omega
  | succ fuel ih =>
    rw [findFuel] at h
    by_cases hp : p ≤ c.length
    · rw [if_pos hp] at h
      by_cases hm : ciMatchAt t c p = true
      · rw [if_pos hm] at h
        cases h
      · rw [if_neg hm] at h
        intro q hq
        rcases Nat.eq_or_lt_of_le hq with heq | hlt
        · subst heq
          exact Bool.not_eq_true _ |>.mp hm
        · exact ih (by omega) h q hlt
    · intro q hq
      by_contra hc
      have := ciMatchAt_le ht (Bool.not_eq_false _ |>.mp hc)
      omega

theorem findFuel_reaches {t c : List Char} (ht : t ≠ []) {fuel p q : Nat}
    (hfuel : c.length < p + fuel) (hq : p ≤ q)
    (hm : ciMatchAt t c q = true) :
    ∃ m, findFuel t c p fuel = some m ∧ m ≤ q := by
  cases hf : findFuel t c p fuel with
  | none =>
    have := findFuel_none ht hfuel hf q hq
    rw [hm] at this
    cases this
  | some m =>
    refine ⟨m, rfl, ?_⟩
    obtain ⟨_, _, h3⟩ := findFuel_some hf
    by_contra hlt
    have := h3 q hq (by omega)
    rw [hm] at this
    cases this

theorem scanFuel_sound {t c : List Char} {fuel p q : Nat}
    (h : q ∈ scanFuel t c p fuel) : p ≤ q ∧ ciMatchAt t c q = true := by
  induction fuel generalizing p with
  | zero => simp [scanFuel] at h
  | succ fuel ih =>
    rw [scanFuel] at h
    by_cases hp : p ≤ c.length
    · rw [if_pos hp] at h
      by_cases hm : ciMatchAt t c p = true
      · rw [if_pos hm] at h
        rcases List.mem_cons.mp h with heq | hmem
        · subst heq; exact ⟨Nat.le_refl _, hm⟩
        · obtain ⟨h1, h2⟩ := ih hmem
          exact ⟨by omega, h2⟩
      · rw [if_neg hm] at h
        obtain ⟨h1, h2⟩ := ih h
        exact ⟨by omega, h2⟩
    · rw [if_neg hp] at h
      cases h

theorem scanFuel_cover {t c : List Char} (ht : t ≠ []) {fuel p q : Nat}
    (hfuel : c.length < p + fuel) (hq : p ≤ q)
    (hm : ciMatchAt t c q = true) :
    ∃ m ∈ scanFuel t c p fuel, m ≤ q ∧ q < m + t.length := by
  have ht1 : 0 < t.length := List.length_pos.mpr ht
  induction fuel generalizing p with
  | zero =>
    have := ciMatchAt_le ht hm
    omega
  | succ fuel ih =>
    rw [scanFuel]
    by_cases hp : p ≤ c.length
    · rw [if_pos hp]
      by_cases hmp : ciMatchAt t c p = true
      · rw [if_pos hmp]
        have hmax : max t.length 1 = t.length := Nat.max_eq_left ht1
        by_cases hlt : q < p + t.length
        · exact ⟨p, List.mem_cons_self _ _, hq, hlt⟩
        · obtain ⟨m, hm1, hm2, hm3⟩ :=
            ih (p := p + max t.length 1) (by omega) (by omega)
          exact ⟨m, List.mem_cons_of_mem _ hm1, hm2, hm3⟩
      · rw [if_neg hmp]
        have hne : p ≠ q := by
          intro heq; subst heq; exact hmp hm
        exact ih (by omega) (by omega)
    · have := ciMatchAt_le ht hm
      omega

theorem findFuel_eq_head {t c : List Char} {fuel p : Nat} :
    findFuel t c p fuel = (scanFuel t c p fuel).head? := by
  induction fuel generalizing p with
  | zero => simp [findFuel, scanFuel]
  | succ fuel ih =>
    rw [findFuel, scanFuel]
    by_cases hp : p ≤ c.length
    · rw [if_pos hp, if_pos hp]
      by_cases hm : ciMatchAt t c p = true
      · rw [if_pos hm, if_pos hm]
        rfl
      · rw [if_neg hm, if_neg hm]
        exact ih
    · rw [if_neg hp, if_neg hp]
      rfl

theorem scanMatches_sound {t c : List Char} {q : Nat}
    (h : q ∈ scanMatches t c) : ciMatchAt t c q = true :=
  (scanFuel_sound h).2

theorem scanMatches_cover {t c : List Char} (ht : t ≠ []) {q : Nat}
    (hm : ciMatchAt t c q = true) :
    ∃ m ∈ scanMatches t c, m ≤ q ∧ q < m + t.length :=
  scanFuel_cover ht (by omega) (Nat.zero_le q) hm

theorem scanMatches_nil_iff {t c : List Char} (ht : t ≠ []) :
    scanMatches t c = [] ↔ ∀ q, ciMatchAt t c q = false := by
  constructor
  · intro hnil q
    by_contra hc
    obtain ⟨m, hm1, -, -⟩ :=
      scanMatches_cover ht (Bool.not_eq_false _ |>.mp hc)
    rw [hnil] at hm1
    cases hm1
  · intro hall
    cases hs : scanMatches t c with
    | nil => rfl
    | cons m rest =>
      have := scanMatches_sound (t := t) (c := c) (q := m) (by rw [hs]; simp)
      rw [hall m] at this
      cases this

theorem scanMatches_head {t c : List Char} :
    (scanMatches t c).head? = findFromPos t c 0 :=
  (findFuel_eq_head).symm

theorem replFuel_irrel {t r : List Char} : ∀ {n : Nat} {c : List Char},
    c.length ≤ n → ∀ f1 f2 : Nat, c.length < f1 → c.length < f2 →
    replFuel t r c f1 = replFuel t r c f2 := by
  intro n
  induction n with
  | zero =>
    intro c hc f1 f2 h1 h2
    have hc0 : c = [] := List.length_eq_zero.mp (by omega)
    subst hc0
    obtain ⟨k1, rfl⟩ := Nat.exists_eq_succ_of_ne_zero (by omega : f1 ≠ 0)
    obtain ⟨k2, rfl⟩ := Nat.exists_eq_succ_of_ne_zero (by omega : f2 ≠ 0)
    rfl
  | succ n ih =>
    intro c hc f1 f2 h1 h2
    obtain ⟨k1, rfl⟩ := Nat.exists_eq_succ_of_ne_zero (by omega : f1 ≠ 0)
    obtain ⟨k2, rfl⟩ := Nat.exists_eq_succ_of_ne_zero (by omega : f2 ≠ 0)
    cases c with
    | nil => rfl
    | cons a rest =>
      have hc' : rest.length ≤ n := by
        simp only [List.length_cons] at hc
        omega
      have h1' : rest.length < k1 := by
        simp only [List.length_cons] at h1
        omega
      have h2' : rest.length < k2 := by
        simp only [List.length_cons] at h2
        omega
      simp only [replFuel]
      by_cases he : t.isEmpty
      · rw [if_pos he, if_pos he, ih hc' k1 k2 h1' h2']
      · rw [if_neg he, if_neg he]
        by_cases hpre : t == (a :: rest).take t.length
        · rw [if_pos hpre, if_pos hpre]
          have ht1 : 0 < t.length := by
            cases t with
            | nil => simp [List.isEmpty] at he
            | cons x xs => simp
          have hd : ((a :: rest).drop t.length).length ≤ rest.length := by
            simp only [List.length_drop, List.length_cons]
            omega
          rw [ih (c := (a :: rest).drop t.length) (by omega) k1 k2
            (by omega) (by omega)]
        · rw [if_neg hpre, if_neg hpre, ih hc' k1 k2 h1' h2']

theorem replFuel_self {t : List Char} : ∀ {fuel : Nat} {c : List Char},
    c.length < fuel → replFuel t t c fuel = c := by
  intro fuel
  induction fuel with
  | zero => intro c h; omega
  | succ fuel ih =>
    intro c h
    cases c with
    | nil =>
      by_cases he : t.isEmpty
      · have : t = [] := by simpa [List.isEmpty_iff] using he
        simp [replFuel, he, this]
      · simp [replFuel, he]
    | cons a rest =>
      simp only [replFuel]
      by_cases he : t.isEmpty
      · have ht0 : t = [] := by simpa [List.isEmpty_iff] using he
        rw [if_pos he, ht0]
        have := ih (c := rest) (by simp at h; omega)
        rw [ht0] at this
        rw [this]
        rfl
      · rw [if_neg he]
        by_cases hpre : t == (a :: rest).take t.length
        · rw [if_pos hpre]
          have htake : t = (a :: rest).take t.length := by simpa using hpre
          have ht1 : 0 < t.length := by
            cases t with
            | nil => simp [List.isEmpty] at he
            | cons x xs => simp
          have := ih (c := (a :: rest).drop t.length)
            (by simp at h ⊢; omega)
          rw [this]
          conv_rhs => rw [← List.take_append_drop t.length (a :: rest)]
          rw [← htake]
        · rw [if_neg hpre]
          have := ih (c := rest) (by simp at h; omega)
          rw [this]

/-- `replaceAll T T C = C`: replacing a term with itself is the
identity. -/
theorem replaceAll_self (t c : List Char) : replaceAll t t c = c :=
  replFuel_self (by omega)

theorem replFuel_not_infix {t r : List Char} (ht : t ≠ []) :
    ∀ {fuel : Nat} {c : List Char}, c.length < fuel → ¬ t <:+: c →
    replFuel t r c fuel = c := by
  intro fuel
  induction fuel with
  | zero => intro c h; omega
  | succ fuel ih =>
    intro c h hinf
    have he : t.isEmpty = false := by
      cases t with
      | nil => exact absurd rfl ht
      | cons x xs => rfl
    cases c with
    | nil => simp [replFuel, he]
    | cons a rest =>
      simp only [replFuel, he, Bool.false_eq_true, if_false]
      by_cases hpre : t == (a :: rest).take t.length
      · exfalso
        apply hinf
        have htake : t = (a :: rest).take t.length := by simpa using hpre
        exact (List.prefix_iff_eq_take.mpr htake).isInfix
      · rw [if_neg hpre]
        have : replFuel t r rest fuel = rest := by
          apply ih (by simp at h; omega)
          intro hi
          exact hinf (hi.trans (List.infix_cons (List.infix_refl rest)))
        rw [this]

/-- A term absent from the content is replaced vacuously: the content is
unchanged. -/
theorem replaceAll_not_infix {t r c : List Char} (ht : t ≠ [])
    (h : ¬ t <:+: c) : replaceAll t r c = c :=
  replFuel_not_infix ht (by omega) h

/-- Peeling one occurrence off the front of the content. -/
theorem replaceAll_cons_occ {t r c : List Char} (ht : t ≠ []) :
    replaceAll t r (t ++ c) = r ++ replaceAll t r c := by
  obtain ⟨x, xs, rfl⟩ := List.exists_cons_of_ne_nil ht
  have he : (x :: xs).isEmpty = false := rfl
  show replFuel _ _ _ _ = _
  have hstep : (x :: xs) ++ c = x :: (xs ++ c) := rfl
  rw [hstep]
  simp only [replFuel, he, Bool.false_eq_true, if_false]
  have htake : ((x :: xs) == (x :: (xs ++ c)).take (x :: xs).length) = true := by
    have h2 : (x :: (xs ++ c)).take (x :: xs).length = x :: xs := by
      have h3 : x :: (xs ++ c) = (x :: xs) ++ c := rfl
      rw [h3, List.take_left]
    rw [h2]
    exact beq_self_eq_true _
  rw [if_pos htake]
  have hdrop : (x :: (xs ++ c)).drop (x :: xs).length = c := by
    have h3 : x :: (xs ++ c) = (x :: xs) ++ c := rfl
    rw [h3, List.drop_left]
  rw [hdrop]
  congr 1
  exact replFuel_irrel (n := c.length) (Nat.le_refl _) _ _ (by simp; omega)
    (by omega)

theorem fsRead_fsWrite_same (fs : List (List Char × List Char))
    (p v : List Char) : fsRead (fsWrite fs p v) p = some v := by
  induction fs with
  | nil => simp [fsWrite, fsRead]
  | cons kv rest ih =>
    obtain ⟨q, w⟩ := kv
    by_cases hq : q = p
    · simp [fsWrite, fsRead, hq]
    · simp [fsWrite, fsRead, hq, ih]

theorem fsRead_fsWrite_ne (fs : List (List Char × List Char))
    {p q : List Char} (v : List Char) (h : q ≠ p) :
    fsRead (fsWrite fs q v) p = fsRead fs p := by
  induction fs with
  | nil => simp [fsWrite, fsRead, h]
  | cons kv rest ih =>
    obtain ⟨k, w⟩ := kv
    by_cases hk : k = q
    · subst hk
      simp [fsWrite, fsRead, h]
    · simp [fsWrite, fsRead, hk, ih]

theorem endsWithSeq_star_append (l : List Char) :
    endsWithSeq (l ++ "*".data) "*".data = true := by
  simp [endsWithSeq]

theorem endsWithSeq_two_star_append (l : List Char) :
    endsWithSeq (l ++ "*".data) "**".data = endsWithSeq l "*".data := by
  show ("**".data.reverse == _) = ("*".data.reverse == _)
  cases hr : l.reverse with
  | nil => simp [hr]
  | cons x xs => simp [hr, List.take]

/-! ### State-level helper lemmas -/

theorem currentIndex_lt {st : AppState} {tb : Tab}
    (h : current_editor st = some tb) : st.currentIndex < st.tabs.length := by
  unfold current_editor at h
  by_contra hge
  rw [List.getElem?_eq_none (by omega)] at h
  cases h

theorem current_editor_setCurrentTab {st : AppState} {tb tb2 : Tab}
    (h : current_editor st = some tb) :
    current_editor (setCurrentTab st tb2) = some tb2 := by
  have hlt := currentIndex_lt h
  unfold current_editor setCurrentTab
  simp [List.getElem?_set, hlt]

theorem setCurrentTab_getElem_ne {st : AppState} (tb2 : Tab) {j : Nat}
    (hj : j ≠ st.currentIndex) :
    (setCurrentTab st tb2).tabs[j]? = st.tabs[j]? := by
  unfold setCurrentTab
  simp only [List.getElem?_set]
  rw [if_neg (fun heq => hj heq.symm)]

theorem autoSaveFs_append (fs : List (List Char × List Char))
    (xs ys : List Tab) :
    autoSaveFs fs (xs ++ ys) = autoSaveFs (autoSaveFs fs xs) ys := by
  induction xs generalizing fs with
  | nil => rfl
  | cons tb rest ih =>
    simp only [List.cons_append, autoSaveFs]
    exact ih _

/-- Reduction of `set_tab_modified` once the current editor is known. -/
theorem set_tab_modified_eq {st : AppState} {tb : Tab}
    (h : current_editor st = some tb) :
    set_tab_modified st =
      if tb.modified then
        if endsWithSeq tb.label "*".data then st
        else setCurrentTab st { tb with label := tb.label ++ "*".data }
      else st := by
  unfold set_tab_modified
  rw [h]

theorem autoSaveFs_read_untouched (fs : List (List Char × List Char))
    (ts : List Tab) (p : List Char)
    (h : ∀ tb ∈ ts, ¬(tb.filePath = some p ∧ tb.modified = true)) :
    fsRead (autoSaveFs fs ts) p = fsRead fs p := by
  induction ts generalizing fs with
  | nil => rfl
  | cons tb rest ih =>
    rw [autoSaveFs]
    rw [ih _ (fun x hx => h x (List.mem_cons_of_mem _ hx))]
    by_cases hc : tb.filePath.isSome && tb.modified
    · rw [if_pos hc]
      obtain ⟨q, hq⟩ := Option.isSome_iff_exists.mp (by
        have := hc
        simp only [Bool.and_eq_true] at this
        exact this.1)
      have hmod : tb.modified = true := by
        have := hc
        simp only [Bool.and_eq_true] at this
        exact this.2
      have hne : tb.filePath.getD [] ≠ p := by
        intro heq
        exact h tb (List.mem_cons_self _ _) ⟨by rw [hq]; rw [hq] at heq; simpa using heq, hmod⟩
      exact fsRead_fsWrite_ne fs _ hne
    · rw [if_neg hc]

/-! ### Claims -/

/-- C10: when `current_editor` returns no editor, every user action —
save, find, find-next, replace, undo, redo — is a total no-op: it
changes no state (and, being a total function of the model, raises
nothing), because each handler guards on the presence of a current
editor before doing anything. -/
theorem C10_no_tab_noop (st : AppState) (h : current_editor st = none)
    (dlg s f r : List Char) (ok ok1 ok2 : Bool) (eff : Tab → Tab) :
    save_file st dlg = st ∧ find_text st ok s = st ∧ find_next st = st ∧
    replace_text st ok1 f ok2 r = st ∧ undo_text st eff = st ∧
    redo_text st eff = st := by
  unfold save_file find_text find_next replace_text undo_text redo_text
  rw [h]
  simp

/-- C10 witness at the tabless window. -/
theorem C10_no_tab_noop_witness :
    save_file st0 "p.txt".data = st0 ∧
    find_text st0 true "a".data = st0 ∧ find_next st0 = st0 ∧
    replace_text st0 true "a".data true "b".data = st0 ∧
    undo_text st0 id = st0 ∧ redo_text st0 id = st0 :=
  C10_no_tab_noop st0 (by decide) "p.txt".data "a".data "a".data "b".data
    true true true id

/-- C2: with both dialogs confirmed and a non-empty find term,
`replace_text` sets the buffer to the content with every occurrence of
the find term replaced (Python `str.replace`); replacing a term by
itself leaves the content unchanged; an absent term leaves the content
unchanged, and an occurrence at the front is deleted when the
replacement is empty; cancelling either dialog or entering an empty
find term aborts the operation as a strict no-op. -/
theorem C2_replace_all (st : AppState) (tb : Tab)
    (h : current_editor st = some tb) (f r : List Char) (hf : f ≠ []) :
    (current_editor (replace_text st true f true r) =
      some (setPlainText tb (replaceAll f r tb.buffer))) ∧
    (∀ t c : List Char, replaceAll t t c = c) ∧
    (∀ t c : List Char, t ≠ [] → ¬ t <:+: c → replaceAll t [] c = c) ∧
    (∀ t c : List Char, t ≠ [] →
      replaceAll t [] (t ++ c) = replaceAll t [] c) ∧
    (∀ ok2 r2, replace_text st false f ok2 r2 = st) ∧
    (∀ ok2 r2, replace_text st true [] ok2 r2 = st) ∧
    (replace_text st true f false r = st) := by
  have hfe : f.isEmpty = false := by
    cases f with
    | nil => exact absurd rfl hf
    | cons x xs => rfl
  refine ⟨?_, replaceAll_self, fun t c ht hi => replaceAll_not_infix ht hi,
    fun t c ht => by simpa using replaceAll_cons_occ (r := ([] : List Char)) ht,
    ?_, ?_, ?_⟩
  · unfold replace_text
    rw [h]
    simp only [hfe, Bool.not_false, Bool.and_true, if_true]
    exact current_editor_setCurrentTab h
  · intro ok2 r2
    unfold replace_text
    rw [h]
    simp
  · intro ok2 r2
    unfold replace_text
    rw [h]
    simp
  · unfold replace_text
    rw [h]
    simp [hfe]

/-- C2 witness: replacing `"ab"` by `"X"` in `"abcab"`. -/
theorem C2_replace_all_witness :
    (current_editor (replace_text st1 true "ab".data true "X".data) =
      some (setPlainText tab1 (replaceAll "ab".data "X".data tab1.buffer))) ∧
    (∀ t c : List Char, replaceAll t t c = c) ∧
    (∀ t c : List Char, t ≠ [] → ¬ t <:+: c → replaceAll t [] c = c) ∧
    (∀ t c : List Char, t ≠ [] →
      replaceAll t [] (t ++ c) = replaceAll t [] c) ∧
    (∀ ok2 r2, replace_text st1 false "ab".data ok2 r2 = st1) ∧
    (∀ ok2 r2, replace_text st1 true [] ok2 r2 = st1) ∧
    (replace_text st1 true "ab".data false "X".data = st1) :=
  C2_replace_all st1 tab1 (by decide) "ab".data "X".data (by decide)

/-- C9: on a text-change notification, the dirty marker `'*'` is
appended to the current tab's label exactly when the document is
modified and the label does not already end in the marker; repeated
notifications are idempotent; and the label never picks up a second
trailing marker. -/
theorem C9_dirty_marker (st : AppState) (tb : Tab)
    (h : current_editor st = some tb) :
    (tb.modified = true → endsWithSeq tb.label "*".data = false →
      current_editor (set_tab_modified st) =
        some { tb with label := tb.label ++ "*".data }) ∧
    (tb.modified = true → endsWithSeq tb.label "*".data = true →
      set_tab_modified st = st) ∧
    (tb.modified = false → set_tab_modified st = st) ∧
    (set_tab_modified (set_tab_modified st) = set_tab_modified st) ∧
    (endsWithSeq tb.label "**".data = false →
      ∀ tb2, current_editor (set_tab_modified st) = some tb2 →
        endsWithSeq tb2.label "**".data = false) := by
  have happ : tb.modified = true → endsWithSeq tb.label "*".data = false →
      current_editor (set_tab_modified st) =
        some { tb with label := tb.label ++ "*".data } := by
    intro hm hs
    rw [set_tab_modified_eq h, hm, hs]
    simp only [if_true, Bool.false_eq_true, if_false]
    exact current_editor_setCurrentTab h
  have hkeep1 : tb.modified = true → endsWithSeq tb.label "*".data = true →
      set_tab_modified st = st := by
    intro hm hs
    rw [set_tab_modified_eq h, hm, hs]
    simp
  have hkeep2 : tb.modified = false → set_tab_modified st = st := by
    intro hm
    rw [set_tab_modified_eq h, hm]
    simp
  refine ⟨happ, hkeep1, hkeep2, ?_, ?_⟩
  · cases hm : tb.modified with
    | false => rw [hkeep2 hm, hkeep2 hm]
    | true =>
      cases hs : endsWithSeq tb.label "*".data with
      | true => rw [hkeep1 hm hs, hkeep1 hm hs]
      | false =>
        rw [set_tab_modified_eq (happ hm hs)]
        simp only [hm, if_true]
        rw [if_pos (endsWithSeq_star_append tb.label)]
  · intro hs2 tb2 h2
    cases hm : tb.modified with
    | false =>
      rw [hkeep2 hm, h] at h2
      cases h2
      exact hs2
    | true =>
      cases hs : endsWithSeq tb.label "*".data with
      | true =>
        rw [hkeep1 hm hs, h] at h2
        cases h2
        exact hs2
      | false =>
        rw [happ hm hs] at h2
        cases h2
        rw [endsWithSeq_two_star_append]
        exact hs

/-- C9 witness on `tab1` (modified, unmarked label). -/
theorem C9_dirty_marker_witness :
    (tab1.modified = true → endsWithSeq tab1.label "*".data = false →
      current_editor (set_tab_modified st1) =
        some { tab1 with label := tab1.label ++ "*".data }) ∧
    (tab1.modified = true → endsWithSeq tab1.label "*".data = true →
      set_tab_modified st1 = st1) ∧
    (tab1.modified = false → set_tab_modified st1 = st1) ∧
    (set_tab_modified (set_tab_modified st1) = set_tab_modified st1) ∧
    (endsWithSeq tab1.label "**".data = false →
      ∀ tb2, current_editor (set_tab_modified st1) = some tb2 →
        endsWithSeq tb2.label "**".data = false) :=
  C9_dirty_marker st1 tab1 (by decide)

/-- C4: one autosave sweep leaves every session without a `file_path`
and every unmodified session untouched; every session with a
`file_path` and a modified document has its full text written to that
path (provided no later-swept tab writes the same path over it), its
modified flag cleared and the trailing dirty marker stripped from its
label; the sweep shows no dialog or message box. -/
theorem C4_auto_save_sweep (st : AppState) (i : Nat)
    (hi : i < st.tabs.length) :
    ((auto_save st).tabs.length = st.tabs.length) ∧
    (st.tabs[i].filePath = none →
      (auto_save st).tabs[i]? = some st.tabs[i]) ∧
    (st.tabs[i].modified = false →
      (auto_save st).tabs[i]? = some st.tabs[i]) ∧
    (∀ p, st.tabs[i].filePath = some p → st.tabs[i].modified = true →
      ((auto_save st).tabs[i]? =
        some { st.tabs[i] with
               modified := false,
               label := if endsWithSeq st.tabs[i].label "*".data
                        then st.tabs[i].label.dropLast
                        else st.tabs[i].label }) ∧
      ((∀ j (hj : j < st.tabs.length), j ≠ i →
          ¬((st.tabs.get ⟨j, hj⟩).filePath = some p ∧
            (st.tabs.get ⟨j, hj⟩).modified = true)) →
        fsRead (auto_save st).fs p = some st.tabs[i].buffer)) ∧
    ((auto_save st).msgs = st.msgs) := by
  have hmap : (auto_save st).tabs[i]? = some (autoSavedTab st.tabs[i]) := by
    unfold auto_save
    simp [List.getElem?_map, List.getElem?_eq_getElem hi]
  refine ⟨by unfold auto_save; simp, ?_, ?_, ?_, rfl⟩
  · intro hfp
    rw [hmap]
    simp [autoSavedTab, hfp]
  · intro hmod
    rw [hmap]
    simp [autoSavedTab, hmod]
  · intro p hfp hmod
    constructor
    · rw [hmap]
      simp [autoSavedTab, hfp, hmod]
    · intro hothers
      unfold auto_save
      have hsplit : st.tabs =
          st.tabs.take i ++ st.tabs[i] :: st.tabs.drop (i + 1) := by
        conv_lhs => rw [← List.take_append_drop i st.tabs]
        rw [List.drop_eq_getElem_cons hi]
      conv_lhs => rw [hsplit]
      rw [autoSaveFs_append, autoSaveFs]
      have hcond : (st.tabs[i].filePath.isSome && st.tabs[i].modified)
          = true := by simp [hfp, hmod]
      rw [if_pos hcond]
      have hgetD : st.tabs[i].filePath.getD [] = p := by rw [hfp]; rfl
      rw [hgetD]
      rw [autoSaveFs_read_untouched]
      · exact fsRead_fsWrite_same _ _ _
      · intro tb htb hcontra
        obtain ⟨k, hk, hkeq⟩ := List.mem_iff_getElem.mp htb
        have hlen : (st.tabs.drop (i + 1)).length =
            st.tabs.length - (i + 1) := List.length_drop _ _
        have hjlt : i + 1 + k < st.tabs.length := by omega
        have hidx : st.tabs.get ⟨i + 1 + k, hjlt⟩ = tb := by
          rw [List.get_eq_getElem, ← hkeq, List.getElem_drop]
        refine hothers (i + 1 + k) hjlt (by omega) ?_
        rw [hidx]
        exact hcontra

/-- C4 witness: a two-tab sweep (one dirty file-backed tab, one
untitled tab). -/
theorem C4_auto_save_sweep_witness :
    (let st : AppState :=
      { tabs := [tab1,
                 { buffer := "u".data, filePath := none, modified := true,
                   label := "Новый документ*".data, selection := none,
                   highlights := [], highlighter := false }],
        currentIndex := 0, search_term := [], last_cursor_pos := 0,
        fs := [], msgs := [] }
     ((auto_save st).tabs.length = st.tabs.length) ∧
     (st.tabs[0].filePath = none →
       (auto_save st).tabs[0]? = some st.tabs[0]) ∧
     (st.tabs[0].modified = false →
       (auto_save st).tabs[0]? = some st.tabs[0]) ∧
     (∀ p, st.tabs[0].filePath = some p → st.tabs[0].modified = true →
       ((auto_save st).tabs[0]? =
         some { st.tabs[0] with
                modified := false,
                label := if endsWithSeq st.tabs[0].label "*".data
                         then st.tabs[0].label.dropLast
                         else st.tabs[0].label }) ∧
       ((∀ j (hj : j < st.tabs.length), j ≠ 0 →
           ¬((st.tabs.get ⟨j, hj⟩).filePath = some p ∧
             (st.tabs.get ⟨j, hj⟩).modified = true)) →
         fsRead (auto_save st).fs p = some st.tabs[0].buffer)) ∧
     ((auto_save st).msgs = st.msgs)) := by
  exact C4_auto_save_sweep _ 0 (by decide)

/-- Reduction of `open_file` on a successful read. -/
theorem open_file_ok_eq (st : AppState) {fn : List Char}
    (text : List Char) (hfe : fn.isEmpty = false) :
    open_file st fn (.ok text) =
      ({ st with
         tabs := st.tabs ++
           [{ buffer := text, filePath := some fn, modified := false,
              label := basename fn, selection := none, highlights := [],
              highlighter := endsWithSeq fn ".py".data ||
                endsWithSeq fn ".md".data ||
                endsWithSeq fn ".html".data }],
         currentIndex := st.tabs.length }, none) := by
  unfold open_file
  rw [hfe]
  rfl

/-- C5: opening a successfully decoded file appends a session in the
Saved state — buffer exactly the file text, `modified` false, the file
name as `file_path`, the base name as label — makes it the current tab,
attaches a `SyntaxHighlighter` exactly when the name ends in `.py`,
`.md` or `.html`, raises nothing, and leaves the prior tabs and
messages unchanged. -/
theorem C5_open_file_session (st : AppState) (fn text : List Char)
    (hfn : fn ≠ []) :
    (open_file st fn (.ok text)).2 = none ∧
    ∃ tb : Tab,
      (open_file st fn (.ok text)).1.tabs = st.tabs ++ [tb] ∧
      current_editor (open_file st fn (.ok text)).1 = some tb ∧
      tb.buffer = text ∧ tb.modified = false ∧ tb.filePath = some fn ∧
      tb.label = basename fn ∧
      tb.highlighter = (endsWithSeq fn ".py".data ||
        endsWithSeq fn ".md".data || endsWithSeq fn ".html".data) ∧
      (open_file st fn (.ok text)).1.msgs = st.msgs := by
  have hfe : fn.isEmpty = false := by
    cases fn with
    | nil => exact absurd rfl hfn
    | cons x xs => rfl
  rw [open_file_ok_eq st text hfe]
  refine ⟨rfl, _, rfl, ?_, rfl, rfl, rfl, rfl, rfl, rfl⟩
  unfold current_editor
  exact List.getElem?_concat_length _ _

/-- C5 witness: opening `"d/n.py"` containing `"# hi"`. -/
theorem C5_open_file_session_witness :
    (open_file st1 "d/n.py".data (.ok "# hi".data)).2 = none ∧
    ∃ tb : Tab,
      (open_file st1 "d/n.py".data (.ok "# hi".data)).1.tabs =
        st1.tabs ++ [tb] ∧
      current_editor (open_file st1 "d/n.py".data (.ok "# hi".data)).1 =
        some tb ∧
      tb.buffer = "# hi".data ∧ tb.modified = false ∧
      tb.filePath = some "d/n.py".data ∧
      tb.label = basename "d/n.py".data ∧
      tb.highlighter = (endsWithSeq "d/n.py".data ".py".data ||
        endsWithSeq "d/n.py".data ".md".data ||
        endsWithSeq "d/n.py".data ".html".data) ∧
      (open_file st1 "d/n.py".data (.ok "# hi".data)).1.msgs = st1.msgs :=
  C5_open_file_session st1 "d/n.py".data "# hi".data (by decide)

/-- C6: `open_file` has no `try`/`except`, so when the read or the
UTF-8 decode raises, the exception escapes the handler: the state is
left unchanged (no session is created) but no message box reports the
failure to the user — the model's second component records the escaped
exception. -/
theorem C6_open_file_decode_failure :
    (open_file st1 "bad.bin".data (.error "UnicodeDecodeError".data)).1 =
      st1 ∧
    (open_file st1 "bad.bin".data (.error "UnicodeDecodeError".data)).2 =
      some "UnicodeDecodeError".data ∧
    (open_file st1 "bad.bin".data
        (.error "UnicodeDecodeError".data)).1.msgs = st1.msgs :=
  ⟨rfl, rfl, rfl⟩

/-- Reduction of `save_file` once the current editor is known. -/
theorem save_file_eq {st : AppState} {tb : Tab}
    (h : current_editor st = some tb) (dlg : List Char) :
    save_file st dlg =
      (if ((if (tb.filePath.getD []).isEmpty then dlg
            else tb.filePath.getD [])).isEmpty then st
       else
        setCurrentTab
          { st with
            fs := fsWrite st.fs
              (if (tb.filePath.getD []).isEmpty then dlg
               else tb.filePath.getD []) tb.buffer }
          { tb with
            filePath := some (if (tb.filePath.getD []).isEmpty then dlg
                              else tb.filePath.getD []),
            label := basename (if (tb.filePath.getD []).isEmpty then dlg
                               else tb.filePath.getD []),
            modified := false }) := by
  unfold save_file
  rw [h]

/-- Reduction of `save_file` when the editor has a stored non-empty
path: no prompt is consulted. -/
theorem save_file_stored {st : AppState} {tb : Tab} {p : List Char}
    (h : current_editor st = some tb) (hp : tb.filePath = some p)
    (hpne : p ≠ []) (dlg : List Char) :
    save_file st dlg =
      setCurrentTab { st with fs := fsWrite st.fs p tb.buffer }
        { tb with filePath := some p, label := basename p,
                  modified := false } := by
  have hemp : p.isEmpty = false := by
    cases p with
    | nil => exact absurd rfl hpne
    | cons x xs => rfl
  rw [save_file_eq h dlg, hp]
  simp only [Option.getD_some, hemp, Bool.false_eq_true, if_false]

/-- C8: `save_file` on a session with no stored path consults the
save dialog; cancelling it leaves the state unchanged; with a stored
path the dialog result is irrelevant; and on success (prompted or not)
the file at the effective path holds exactly the buffer text, the
session's `file_path` is that path, `modified` is false and the label
is the path's base name (no dirty marker appended). -/
theorem C8_save_file_prompt (st : AppState) (tb : Tab)
    (h : current_editor st = some tb) :
    (tb.filePath.getD [] = [] → save_file st [] = st) ∧
    (tb.filePath.getD [] ≠ [] →
      ∀ d1 d2, save_file st d1 = save_file st d2) ∧
    (∀ dlg, tb.filePath.getD [] = [] → dlg ≠ [] →
      fsRead (save_file st dlg).fs dlg = some tb.buffer ∧
      current_editor (save_file st dlg) =
        some { tb with filePath := some dlg, label := basename dlg,
                       modified := false }) ∧
    (∀ p dlg, tb.filePath = some p → p ≠ [] →
      fsRead (save_file st dlg).fs p = some tb.buffer ∧
      current_editor (save_file st dlg) =
        some { tb with filePath := some p, label := basename p,
                       modified := false }) := by
  have hemp : ∀ l : List Char, l ≠ [] → l.isEmpty = false := by
    intro l hl
    cases l with
    | nil => exact absurd rfl hl
    | cons x xs => rfl
  refine ⟨?_, ?_, ?_, ?_⟩
  · intro hst
    rw [save_file_eq h []]
    rw [hst]
    rfl
  · intro hst d1 d2
    rw [save_file_eq h d1, save_file_eq h d2, hemp _ hst]
    simp
  · intro dlg hst hdlg
    rw [save_file_eq h dlg, hst]
    simp only [List.isEmpty_nil, if_true, hemp dlg hdlg,
      Bool.false_eq_true, if_false]
    constructor
    · exact fsRead_fsWrite_same _ _ _
    · exact current_editor_setCurrentTab h
  · intro p dlg hp hpne
    rw [save_file_eq h dlg, hp]
    simp only [Option.getD_some, hemp p hpne, Bool.false_eq_true, if_false]
    constructor
    · exact fsRead_fsWrite_same _ _ _
    · exact current_editor_setCurrentTab h

/-- C8 witness on `tab1` (stored path `"d/x.txt"`). -/
theorem C8_save_file_prompt_witness :
    ((tab1.filePath.getD [] = [] → save_file st1 [] = st1) ∧
     (tab1.filePath.getD [] ≠ [] →
       ∀ d1 d2, save_file st1 d1 = save_file st1 d2) ∧
     (∀ dlg, tab1.filePath.getD [] = [] → dlg ≠ [] →
       fsRead (save_file st1 dlg).fs dlg = some tab1.buffer ∧
       current_editor (save_file st1 dlg) =
         some { tab1 with filePath := some dlg, label := basename dlg,
                          modified := false }) ∧
     (∀ p dlg, tab1.filePath = some p → p ≠ [] →
       fsRead (save_file st1 dlg).fs p = some tab1.buffer ∧
       current_editor (save_file st1 dlg) =
         some { tab1 with filePath := some p, label := basename p,
                          modified := false })) ∧
    fsRead (save_file st1 []).fs "d/x.txt".data = some "abcab".data :=
  ⟨C8_save_file_prompt st1 tab1 (by decide),
   by
    have h2 := (C8_save_file_prompt st1 tab1 (by decide)).2.2.2
      "d/x.txt".data [] (by decide) (by decide)
    exact h2.1⟩

/-- C7: with at least two modified sessions, choosing "Save" at the
exit prompt runs `save_file` on the active session only — its text is
written and its flag cleared while every other tab (buffer, file, label
and modified flag) is byte-for-byte unchanged, so other dirty tabs stay
dirty — and the close event is accepted; "Discard" accepts the event
with the whole state unchanged (nothing written); "Cancel" refuses the
event with the whole state unchanged. -/
theorem C7_exit_save_active (st : AppState) (tb : Tab)
    (h : current_editor st = some tb) (i j : Nat)
    (hi : i < st.tabs.length) (hj : j < st.tabs.length) (hij : i ≠ j)
    (hmi : (st.tabs.get ⟨i, hi⟩).modified = true)
    (hmj : (st.tabs.get ⟨j, hj⟩).modified = true)
    (p : List Char) (hp : tb.filePath = some p) (hpne : p ≠ [])
    (dlg : List Char) :
    ((closeEvent st .save dlg).accepted = true ∧
     (closeEvent st .save dlg).st = save_file st dlg ∧
     fsRead (closeEvent st .save dlg).st.fs p = some tb.buffer ∧
     current_editor (closeEvent st .save dlg).st =
       some { tb with filePath := some p, label := basename p,
                      modified := false } ∧
     (∀ k, k ≠ st.currentIndex →
       (closeEvent st .save dlg).st.tabs[k]? = st.tabs[k]?) ∧
     (closeEvent st .save dlg).st.msgs = st.msgs) ∧
    (closeEvent st .discard dlg = { st := st, accepted := true }) ∧
    (closeEvent st .cancel dlg = { st := st, accepted := false }) := by
  have hunsaved : st.tabs.any (fun tb => tb.modified) = true := by
    rw [List.any_eq_true]
    exact ⟨st.tabs.get ⟨j, hj⟩, List.get_mem _ _ _, hmj⟩
  have hsave : closeEvent st .save dlg =
      { st := save_file st dlg, accepted := true } := by
    unfold closeEvent
    simp only [hunsaved, if_true]
  have hstored := save_file_stored h hp hpne dlg
  refine ⟨⟨?_, ?_, ?_, ?_, ?_, ?_⟩, ?_, ?_⟩
  · rw [hsave]
  · rw [hsave]
  · rw [hsave, hstored]
    exact fsRead_fsWrite_same _ _ _
  · rw [hsave, hstored]
    exact current_editor_setCurrentTab h
  · intro k hk
    rw [hsave, hstored]
    exact setCurrentTab_getElem_ne _ hk
  · rw [hsave, hstored]
    rfl
  · unfold closeEvent
    simp only [hunsaved, if_true]
  · unfold closeEvent
    simp only [hunsaved, if_true]

/-- C7 witness on two dirty tabs (`tab1` active, `tab2` untitled and
dirty). -/
theorem C7_exit_save_active_witness :
    ((closeEvent st2 .save []).accepted = true ∧
     (closeEvent st2 .save []).st = save_file st2 [] ∧
     fsRead (closeEvent st2 .save []).st.fs "d/x.txt".data =
       some tab1.buffer ∧
     current_editor (closeEvent st2 .save []).st =
       some { tab1 with filePath := some "d/x.txt".data,
                        label := basename "d/x.txt".data,
                        modified := false } ∧
     (∀ k, k ≠ st2.currentIndex →
       (closeEvent st2 .save []).st.tabs[k]? = st2.tabs[k]?) ∧
     (closeEvent st2 .save []).st.msgs = st2.msgs) ∧
    (closeEvent st2 .discard [] = { st := st2, accepted := true }) ∧
    (closeEvent st2 .cancel [] = { st := st2, accepted := false }) :=
  C7_exit_save_active st2 tab1 (by decide) 0 1 (by decide) (by decide)
    (by decide) (by decide) (by decide) "d/x.txt".data (by decide)
    (by decide) []

/-- `findFromPos` returns only case-insensitive occurrences at or after
the start position. -/
theorem findFromPos_some {t c : List Char} {p q : Nat}
    (h : findFromPos t c p = some q) :
    p ≤ q ∧ ciMatchAt t c q = true :=
  ⟨(findFuel_some h).1, (findFuel_some h).2.1⟩

/-- `findFromPos` finds something no later than any given occurrence. -/
theorem findFromPos_reaches {t c : List Char} (ht : t ≠ []) {p q : Nat}
    (hq : p ≤ q) (hm : ciMatchAt t c q = true) :
    ∃ m, findFromPos t c p = some m ∧ m ≤ q :=
  findFuel_reaches ht (by omega) hq hm

/-- When the term occurs nowhere, `findFromPos` fails from every start
position. -/
theorem findFromPos_none_of_all {t c : List Char}
    (hall : ∀ q, ciMatchAt t c q = false) (p : Nat) :
    findFromPos t c p = none := by
  cases hf : findFromPos t c p with
  | none => rfl
  | some q =>
    have h2 := (findFuel_some hf).2.1
    rw [hall q] at h2
    cases h2

/-- Reduction of `find_text` on a confirmed non-empty term. -/
theorem find_text_true_eq {st : AppState} {tb : Tab}
    (h : current_editor st = some tb) {s : List Char}
    (hs : s.isEmpty = false) :
    find_text st true s =
      (match (scanMatches s tb.buffer).head? with
       | some m =>
         setCurrentTab { st with search_term := s, last_cursor_pos := 0 }
           { tb with
             highlights := (scanMatches s tb.buffer).map
               (fun p => (p, p + s.length)),
             selection := some (m, m + s.length) }
       | none =>
         { setCurrentTab { st with search_term := s, last_cursor_pos := 0 }
             { tb with highlights := [] } with
           msgs := st.msgs ++ [notFoundMsg] }) := by
  unfold find_text highlight_all clear_highlight
  rw [h]
  simp only [hs, Bool.not_false, Bool.and_self, if_true]
  cases hh : (scanMatches s tb.buffer).head? with
  | some m => simp [hh]
  | none =>
    have hnil : scanMatches s tb.buffer = [] := by
      cases hsm : scanMatches s tb.buffer with
      | nil => rfl
      | cons x xs => rw [hsm] at hh; cases hh
    simp [hh, hnil]
    rfl

/-- C1 counterexample: in buffer `"aaa"` with term `"aa"`, position 1
satisfies `C[P:P+len(T)] = T` case-insensitively, yet `highlight_all`
highlights only the span starting at 0 — `re.finditer` scans
non-overlapping matches, so the claimed if-and-only-if fails at P = 1. -/
theorem C1_highlight_iff_counterexample :
    ciMatchAt "aa".data "aaa".data 1 = true ∧
    (highlight_all tab3 "aa".data).1.highlights = [(0, 2)] ∧
    ¬ ((1, 3) ∈ (highlight_all tab3 "aa".data).1.highlights) := by
  decide

/-- C1 (amended): `highlight_all` highlights the matches of a greedy
left-to-right non-overlapping scan: every highlighted position is a
case-insensitive occurrence of the term, and every case-insensitive
occurrence either is highlighted or overlaps a highlighted match
starting earlier; there are zero scan matches exactly when the term
occurs nowhere; the first scan match is the leftmost occurrence and the
selection moves to it; with zero matches the user-visible
"Текст не найден." notification is emitted; an empty or cancelled term
is refused (`find_text` is a no-op). -/
theorem C1_highlight_scan (st : AppState) (tb : Tab)
    (h : current_editor st = some tb) (t : List Char) (ht : t ≠ []) :
    (∀ q ∈ scanMatches t tb.buffer, ciMatchAt t tb.buffer q = true) ∧
    (∀ q, ciMatchAt t tb.buffer q = true →
      ∃ m ∈ scanMatches t tb.buffer, m ≤ q ∧ q < m + t.length) ∧
    (scanMatches t tb.buffer = [] ↔
      ∀ q, ciMatchAt t tb.buffer q = false) ∧
    ((scanMatches t tb.buffer).head? = findFromPos t tb.buffer 0) ∧
    (∀ m, (scanMatches t tb.buffer).head? = some m →
      (∀ q, ciMatchAt t tb.buffer q = true → m ≤ q) ∧
      find_text st true t =
        setCurrentTab { st with search_term := t, last_cursor_pos := 0 }
          { tb with
            highlights := (scanMatches t tb.buffer).map
              (fun p => (p, p + t.length)),
            selection := some (m, m + t.length) } ∧
      (find_text st true t).msgs = st.msgs) ∧
    ((scanMatches t tb.buffer).head? = none →
      find_text st true t =
        { setCurrentTab { st with search_term := t, last_cursor_pos := 0 }
            { tb with highlights := [] } with
          msgs := st.msgs ++ [notFoundMsg] }) ∧
    (∀ s, find_text st false s = st) ∧
    (find_text st true [] = st) := by
  have hte : t.isEmpty = false := by
    cases t with
    | nil => exact absurd rfl ht
    | cons x xs => rfl
  refine ⟨fun q hq => scanMatches_sound hq,
    fun q hq => scanMatches_cover ht hq,
    scanMatches_nil_iff ht, scanMatches_head, ?_, ?_, ?_, ?_⟩
  · intro m hm
    refine ⟨?_, ?_, ?_⟩
    · intro q hq
      rw [scanMatches_head] at hm
      obtain ⟨-, -, h3⟩ := findFuel_some hm
      by_contra hlt
      have h4 := h3 q (by omega) (by omega)
      rw [hq] at h4
      cases h4
    · rw [find_text_true_eq h hte, hm]
    · rw [find_text_true_eq h hte, hm]
      rfl
  · intro hm
    rw [find_text_true_eq h hte, hm]
  · intro s
    unfold find_text
    rw [h]
    simp
  · unfold find_text
    rw [h]
    simp

/-- C1 amended-claim witness: searching `"aa"` in `"aaa"`. -/
theorem C1_highlight_scan_witness :
    (∀ q ∈ scanMatches "aa".data tab3.buffer,
      ciMatchAt "aa".data tab3.buffer q = true) ∧
    (∀ q, ciMatchAt "aa".data tab3.buffer q = true →
      ∃ m ∈ scanMatches "aa".data tab3.buffer,
        m ≤ q ∧ q < m + "aa".data.length) ∧
    (scanMatches "aa".data tab3.buffer = [] ↔
      ∀ q, ciMatchAt "aa".data tab3.buffer q = false) ∧
    ((scanMatches "aa".data tab3.buffer).head? =
      findFromPos "aa".data tab3.buffer 0) ∧
    (∀ m, (scanMatches "aa".data tab3.buffer).head? = some m →
      (∀ q, ciMatchAt "aa".data tab3.buffer q = true → m ≤ q) ∧
      find_text st3 true "aa".data =
        setCurrentTab { st3 with search_term := "aa".data,
                                 last_cursor_pos := 0 }
          { tab3 with
            highlights := (scanMatches "aa".data tab3.buffer).map
              (fun p => (p, p + "aa".data.length)),
            selection := some (m, m + "aa".data.length) } ∧
      (find_text st3 true "aa".data).msgs = st3.msgs) ∧
    ((scanMatches "aa".data tab3.buffer).head? = none →
      find_text st3 true "aa".data =
        { setCurrentTab { st3 with search_term := "aa".data,
                                   last_cursor_pos := 0 }
            { tab3 with highlights := [] } with
          msgs := st3.msgs ++ [notFoundMsg] }) ∧
    (∀ s, find_text st3 false s = st3) ∧
    (find_text st3 true [] = st3) :=
  C1_highlight_scan st3 tab3 (by decide) "aa".data (by decide)

/-- Reduction of `find_next` on a non-empty stored term. -/
theorem find_next_eq {st : AppState} {tb : Tab}
    (h : current_editor st = some tb)
    (hs : st.search_term.isEmpty = false) :
    find_next st =
      (match findFromPos st.search_term tb.buffer st.last_cursor_pos with
       | some p =>
         setCurrentTab
           { st with last_cursor_pos := p + st.search_term.length }
           { tb with selection := some (p, p + st.search_term.length) }
       | none =>
         match findFromPos st.search_term tb.buffer 0 with
         | some p =>
           setCurrentTab
             { st with last_cursor_pos := p + st.search_term.length }
             { tb with selection := some (p, p + st.search_term.length) }
         | none => st) := by
  unfold find_next
  rw [h]
  simp only [hs, Bool.false_eq_true, if_false]
  cases hd : findFromPos st.search_term tb.buffer st.last_cursor_pos with
  | some p => simp [hd]
  | none =>
    cases hw : findFromPos st.search_term tb.buffer 0 with
    | some p => simp [hd, hw]
    | none => simp [hd, hw]

/-- When the stored term has exactly one occurrence, `find_next`
selects it and places the resume position after it — regardless of the
current resume position (directly or after the single wrap). -/
theorem find_next_unique {s : AppState} {tbv : Tab}
    (h : current_editor s = some tbv) (ht : s.search_term ≠ [])
    {u : Nat} (hu : ciMatchAt s.search_term tbv.buffer u = true)
    (huniq : ∀ q, ciMatchAt s.search_term tbv.buffer q = true → q = u) :
    find_next s =
      setCurrentTab { s with last_cursor_pos := u + s.search_term.length }
        { tbv with selection := some (u, u + s.search_term.length) } := by
  have hse : s.search_term.isEmpty = false := by
    cases hc : s.search_term with
    | nil => exact absurd hc ht
    | cons x xs => rfl
  have hzero : findFromPos s.search_term tbv.buffer 0 = some u := by
    obtain ⟨m, hm, hle⟩ := findFromPos_reaches ht (Nat.zero_le u) hu
    have hmu : m = u := huniq m (findFromPos_some hm).2
    rw [← hmu]
    exact hm
  rcases hd : findFromPos s.search_term tbv.buffer s.last_cursor_pos
    with _ | q
  · rw [find_next_eq h hse, hd, hzero]
  · have hq : q = u := huniq q (findFromPos_some hd).2
    subst hq
    rw [find_next_eq h hse, hd]

/-- C3: with a non-empty stored term, `find_next` searches forward from
the resume position; when that fails it wraps exactly once to 0; when
both passes fail (the term is absent) it terminates with the state
unchanged; on success it selects the match and stores the position just
after it; entering a new term through `find_text` resets the resume
position to 0; and on a buffer with exactly one occurrence, two
successive `find_next` calls select the same occurrence both times. -/
theorem C3_find_next_wrap (st : AppState) (tb : Tab)
    (h : current_editor st = some tb) (hterm : st.search_term ≠ []) :
    (∀ p, findFromPos st.search_term tb.buffer st.last_cursor_pos = some p →
      find_next st =
        setCurrentTab
          { st with last_cursor_pos := p + st.search_term.length }
          { tb with selection := some (p, p + st.search_term.length) }) ∧
    (∀ p, findFromPos st.search_term tb.buffer st.last_cursor_pos = none →
      findFromPos st.search_term tb.buffer 0 = some p →
      find_next st =
        setCurrentTab
          { st with last_cursor_pos := p + st.search_term.length }
          { tb with selection := some (p, p + st.search_term.length) }) ∧
    ((∀ q, ciMatchAt st.search_term tb.buffer q = false) →
      find_next st = st) ∧
    (∀ s, s ≠ [] →
      (find_text st true s).last_cursor_pos = 0 ∧
      (find_text st true s).search_term = s) ∧
    (∀ u, ciMatchAt st.search_term tb.buffer u = true →
      (∀ q, ciMatchAt st.search_term tb.buffer q = true → q = u) →
      (∃ tb1, current_editor (find_next st) = some tb1 ∧
        tb1.selection = some (u, u + st.search_term.length)) ∧
      (∃ tb2, current_editor (find_next (find_next st)) = some tb2 ∧
        tb2.selection = some (u, u + st.search_term.length))) := by
  have hse : st.search_term.isEmpty = false := by
    cases hc : st.search_term with
    | nil => exact absurd hc hterm
    | cons x xs => rfl
  refine ⟨?_, ?_, ?_, ?_, ?_⟩
  · intro p hp
    rw [find_next_eq h hse, hp]
  · intro p hn hz
    rw [find_next_eq h hse, hn, hz]
  · intro hall
    rw [find_next_eq h hse, findFromPos_none_of_all hall _,
      findFromPos_none_of_all hall 0]
  · intro s hs2
    have hse2 : s.isEmpty = false := by
      cases hc : s with
      | nil => exact absurd hc hs2
      | cons x xs => rfl
    rw [find_text_true_eq h hse2]
    rcases hh : (scanMatches s tb.buffer).head? with _ | m
    · exact ⟨rfl, rfl⟩
    · exact ⟨rfl, rfl⟩
  · intro u hu huniq
    have hfx := find_next_unique h hterm hu huniq
    have hcur : current_editor
        (setCurrentTab
          { st with last_cursor_pos := u + st.search_term.length }
          { tb with selection := some (u, u + st.search_term.length) }) =
        some { tb with selection := some (u, u + st.search_term.length) } :=
      current_editor_setCurrentTab h
    have hfx2 := find_next_unique hcur hterm hu huniq
    constructor
    · rw [hfx]
      exact ⟨_, hcur, rfl⟩
    · rw [hfx, hfx2]
      exact ⟨_, current_editor_setCurrentTab hcur, rfl⟩

/-- C3 witness at the state searching `"aa"` in `"aaa"`. -/
theorem C3_find_next_wrap_witness :
    (∀ p, findFromPos st3.search_term tab3.buffer st3.last_cursor_pos =
        some p →
      find_next st3 =
        setCurrentTab
          { st3 with last_cursor_pos := p + st3.search_term.length }
          { tab3 with selection := some (p, p + st3.search_term.length) }) ∧
    (∀ p, findFromPos st3.search_term tab3.buffer st3.last_cursor_pos =
        none →
      findFromPos st3.search_term tab3.buffer 0 = some p →
      find_next st3 =
        setCurrentTab
          { st3 with last_cursor_pos := p + st3.search_term.length }
          { tab3 with selection := some (p, p + st3.search_term.length) }) ∧
    ((∀ q, ciMatchAt st3.search_term tab3.buffer q = false) →
      find_next st3 = st3) ∧
    (∀ s, s ≠ [] →
      (find_text st3 true s).last_cursor_pos = 0 ∧
      (find_text st3 true s).search_term = s) ∧
    (∀ u, ciMatchAt st3.search_term tab3.buffer u = true →
      (∀ q, ciMatchAt st3.search_term tab3.buffer q = true → q = u) →
      (∃ tb1, current_editor (find_next st3) = some tb1 ∧
        tb1.selection = some (u, u + st3.search_term.length)) ∧
      (∃ tb2, current_editor (find_next (find_next st3)) = some tb2 ∧
        tb2.selection = some (u, u + st3.search_term.length))) :=
  C3_find_next_wrap st3 tab3 (by decide) (by decide)

end MainPy
